import Mathlib

/-!
Verification of the Qui-Browser WebAssembly kernel module
(src/wasm/src/lib.rs) against its specification.

The file shallowly embeds the three kernel groups of the source —
MatrixMath, TextProcessor and DataCompressor — and proves or refutes the
spec's claims about them.  Modelling conventions:

* a byte slice or `Float32Array` buffer is embedded either as a `List` or as
  its index function, as noted on each definition;
* `f32` arithmetic is embedded as exact arithmetic (`ℚ` for the matrix
  kernels, `ℤ` for the delta codec, whose claims concern integral samples on
  which the actual `f32` operations are exact);
* Rust `usize` arithmetic is `Nat` (with its truncated subtraction), `as u8`
  casts are `% 256`, and the float-to-`i16` `as` cast is the saturating cast
  Rust defines;
* loops become structural recursions; where a loop's bound is not syntactic,
  the recursion carries explicit fuel chosen at the call site to dominate the
  loop's iteration count, which is noted and justified on the definition.
-/

namespace MatrixMath

/-- Embedding of the function multiply_matrices of MatrixMath
(src/wasm/src/lib.rs lines 15-32).  Each Float32Array buffer is embedded as
its index function (the kernel reads entries a_data[i*4+k] and b_data[k*4+j]);
float arithmetic is modelled as exact rational arithmetic.  The loops
`for i in 0..4`, `for j in 0..4` write `result[i*4+j]`, each entry accumulated
by the `for k in 0..4` loop from `sum = 0.0`. -/
def multiply_matrices (a b : Nat → ℚ) : List ℚ :=
  ([0, 1, 2, 3] : List Nat).flatMap (fun i =>
    ([0, 1, 2, 3] : List Nat).map (fun j =>
      ([0, 1, 2, 3] : List Nat).foldl (fun sum k => sum + a (i * 4 + k) * b (k * 4 + j)) 0))

/-- The 4x4 identity matrix as a row-major 16-entry buffer. -/
def idMat : Nat → ℚ := fun idx => if idx / 4 = idx % 4 then 1 else 0

end MatrixMath

namespace TextProcessor

/-- Default character for out-of-range reads (which panic in the source);
every input the claims exercise stays in bounds. -/
def padChar : Char := Char.ofNat 0

/-- The bad-character table build of boyer_moore_search
(src/wasm/src/lib.rs lines 108-111): the loop inserts `ch -> i` for `i`
ascending, so a lookup returns the LAST index of the character in the
pattern.  Here `acc` is the entry the map holds for `c` so far. -/
def lastOccAux (c : Char) : List Char → Nat → Option Nat → Option Nat
  | [], _, acc => acc
  | ch :: rest, i, acc => lastOccAux c rest (i + 1) (if ch = c then some i else acc)

def lastOcc (p : List Char) (c : Char) : Option Nat :=
  lastOccAux c p 0 none

/-- The inner right-to-left scan of src/wasm/src/lib.rs lines 115-119:
`while j > 0 && text[i+j] == pattern[j] { j -= 1 }`, returning the final j. -/
def scanBack (t p : List Char) (i : Nat) : Nat → Nat
  | 0 => 0
  | j + 1 =>
    if t.getD (i + (j + 1)) padChar = p.getD (j + 1) padChar then scanBack t p i j
    else j + 1

/-- The outer window loop of src/wasm/src/lib.rs lines 113-128, with explicit
fuel.  Every executed shift `max bad_char_shift j` is at least 1 (lemma
`bmShift_pos` below), so with fuel `t.length + 1` the `0` case only fires once
`i` has left the window range, where the loop returns -1 anyway. -/
def bmLoop (t p : List Char) : Nat → Nat → Int
  | 0, _ => -1
  | fuel + 1, i =>
    if i ≤ t.length - p.length then
      let j := scanBack t p i (p.length - 1)
      if t.getD (i + j) padChar = p.getD j padChar then (i : Int)
      else
        bmLoop t p fuel (i + max ((lastOcc p (t.getD (i + j) padChar)).getD p.length) j)
    else -1

/-- Embedding of the function boyer_moore_search of TextProcessor
(src/wasm/src/lib.rs lines 96-131).  The guards compare `text.len()` and
`pattern.len()`, which in Rust are byte lengths, hence `utf8ByteSize`; the
window loop then walks the char vectors. -/
def boyer_moore_search (text pattern : String) : Int :=
  if pattern.isEmpty then 0
  else if text.utf8ByteSize < pattern.utf8ByteSize then -1
  else bmLoop text.data pattern.data (text.data.length + 1) 0

theorem lastOccAux_some (c : Char) (l : List Char) (i : Nat) (acc : Option Nat) (k : Nat)
    (h : lastOccAux c l i acc = some k) :
    acc = some k ∨ (i ≤ k ∧ k < i + l.length ∧ l.getD (k - i) padChar = c) := by
  induction l generalizing i acc with
  | nil => exact Or.inl h
  | cons ch rest ih =>
    rcases ih (i + 1) (if ch = c then some i else acc) h with h1 | h2
    · by_cases hc : ch = c
      · simp [hc] at h1
        right
        subst h1
        simp [hc]
      · simp [hc] at h1
        exact Or.inl h1
    · right
      obtain ⟨hk1, hk2, hk3⟩ := h2
      refine ⟨by omega, by simp; omega, ?_⟩
      have hki : k - i = (k - (i + 1)) + 1 := by omega
      rw [hki]
      simpa using hk3

theorem lastOcc_zero (p : List Char) (c : Char) (h : lastOcc p c = some 0) :
    p.getD 0 padChar = c := by
  rcases lastOccAux_some c p 0 none 0 h with h1 | h2
  · simp at h1
  · simpa using h2.2.2

/-- A shift executed by the mismatch branch of the window loop is at least 1:
either the scan stopped at some `j > 0`, or `j = 0` and the mismatching
character's last occurrence in the pattern cannot be index 0, since index 0
holding it would make the compared characters equal.  This is what makes fuel
`t.length + 1` sufficient for `bmLoop`. -/
theorem bmShift_pos (t p : List Char) (i : Nat) (hp : p ≠ [])
    (hmis : ¬ t.getD (i + scanBack t p i (p.length - 1)) padChar
        = p.getD (scanBack t p i (p.length - 1)) padChar) :
    1 ≤ max ((lastOcc p (t.getD (i + scanBack t p i (p.length - 1)) padChar)).getD p.length)
        (scanBack t p i (p.length - 1)) := by
  rcases hj : scanBack t p i (p.length - 1) with _ | j
  · rw [hj] at hmis
    rcases ho : lastOcc p (t.getD (i + 0) padChar) with _ | k
    · have hlen : 1 ≤ p.length := by
        cases p with
        | nil => exact absurd rfl hp
        | cons a l => simp
      simpa [ho] using hlen
    · rcases k with _ | k
      · exact absurd (lastOcc_zero p _ ho) (fun he => hmis (by simpa using he.symm))
      · simp [ho]
  · simp [hj]

/-- Rust str::split_whitespace at the char level: maximal runs of
non-whitespace characters, in order.  Lean's Char.isWhitespace stands in for
Rust's Unicode White_Space predicate; the two agree on ASCII whitespace.
The accumulator `cur` collects the current run in reverse. -/
def splitWsAux : List Char → List Char → List String
  | [], cur => if cur.isEmpty then [] else [String.mk cur.reverse]
  | c :: rest, cur =>
    if c.isWhitespace then
      if cur.isEmpty then splitWsAux rest []
      else String.mk cur.reverse :: splitWsAux rest []
    else splitWsAux rest (c :: cur)

def split_whitespace (s : String) : List String :=
  splitWsAux s.data []

/-- The word list of extract_keywords (src/wasm/src/lib.rs lines 147-151):
normalize, split on whitespace, keep words whose byte length (Rust
`word.len()` counts UTF-8 bytes) exceeds 3.  The source's normalize_text
delegates to the external unicode_normalization crate and to Rust's
str::to_lowercase, whose Unicode tables are not part of this repository, so
normalization enters the model as the parameter `norm`; every theorem below
holds for an arbitrary `norm`. -/
def wordsOf (norm : String → String) (text : String) : List String :=
  (split_whitespace (norm text)).filter (fun w => 3 < w.utf8ByteSize)

/-- One step `*frequency.entry(word).or_insert(0) += 1` of
src/wasm/src/lib.rs lines 153-156 on the model's association list: bump the
entry holding the word, or append a fresh entry with count 1. -/
def bump : List (String × Nat) → String → List (String × Nat)
  | [], w => [(w, 1)]
  | p :: rest, w => if p.1 = w then (p.1, p.2 + 1) :: rest else p :: bump rest w

/-- The frequency table of src/wasm/src/lib.rs lines 153-156.  The source's
HashMap iterates in an unspecified order; the model lists entries in
first-seen order, and the claim theorems quantify over every permutation of
these entries, covering every possible iteration order. -/
def freqList (ws : List String) : List (String × Nat) :=
  ws.foldl bump []

/-- First-match lookup in the association list. -/
def lookupC : List (String × Nat) → String → Nat
  | [], _ => 0
  | p :: rest, w => if p.1 = w then p.2 else lookupC rest w

/-- Comparison used by `sort_by(|a, b| b.1.cmp(a.1))` in
src/wasm/src/lib.rs line 159: sort by descending occurrence count. -/
def countGE (a b : String × Nat) : Prop := b.2 ≤ a.2

instance : DecidableRel countGE := fun a b => Nat.decLe b.2 a.2

instance : IsTotal (String × Nat) countGE := ⟨fun a b => le_total b.2 a.2⟩

instance : IsTrans (String × Nat) countGE := ⟨fun _ _ _ h1 h2 => le_trans h2 h1⟩

/-- Sort by descending count, take at most `maxKeywords`, keep the words
(src/wasm/src/lib.rs lines 158-164).  Rust's sort_by is a stable sort, and a
stable sort by a total preorder has exactly one possible output, so the
(stable) insertion sort is a faithful model of it. -/
def rankKeywords (l : List (String × Nat)) (maxKeywords : Nat) : List String :=
  ((l.insertionSort countGE).take maxKeywords).map Prod.fst

/-- Embedding of the function extract_keywords of TextProcessor
(src/wasm/src/lib.rs lines 144-165), parametric in the externally-defined
normalization. -/
def extract_keywords (norm : String → String) (text : String) (maxKeywords : Nat) :
    List String :=
  rankKeywords (freqList (wordsOf norm text)) maxKeywords

theorem lookupC_bump (m : List (String × Nat)) (w x : String) :
    lookupC (bump m w) x = if x = w then lookupC m x + 1 else lookupC m x := by
  induction m with
  | nil =>
    by_cases hx : x = w
    · simp [bump, lookupC, hx]
    · have hx2 : ¬ w = x := fun h => hx h.symm
      simp [bump, lookupC, hx, hx2]
  | cons p rest ih =>
    by_cases hp : p.1 = w
    · by_cases hx : x = w
      · have h1 : p.1 = x := hp.trans hx.symm
        simp [bump, hp, lookupC, hx, h1]
      · have h1 : ¬ p.1 = x := fun h => hx (h.symm.trans hp)
        have h2 : ¬ w = x := fun h => hx h.symm
        simp [bump, hp, lookupC, hx, h1, h2]
    · by_cases hx : p.1 = x
      · have h1 : ¬ x = w := fun h => hp (hx.trans h)
        simp [bump, hp, lookupC, hx, h1]
      · simp [bump, hp, lookupC, hx, ih]

theorem lookupC_foldl (ws : List String) (m : List (String × Nat)) (x : String) :
    lookupC (ws.foldl bump m) x = lookupC m x + ws.count x := by
  induction ws generalizing m with
  | nil => simp
  | cons w ws ih =>
    rw [List.foldl_cons, ih, lookupC_bump, List.count_cons]
    by_cases hx : x = w
    · simp [hx]
      omega
    · have h2 : ¬ (w == x) = true := by
        simpa using fun h => hx h.symm
      simp [hx, h2]

theorem lookupC_freq (ws : List String) (x : String) :
    lookupC (freqList ws) x = ws.count x := by
  rw [freqList, lookupC_foldl]
  simp [lookupC]

theorem keys_bump (m : List (String × Nat)) (w : String) :
    (bump m w).map Prod.fst =
      if w ∈ m.map Prod.fst then m.map Prod.fst else m.map Prod.fst ++ [w] := by
  induction m with
  | nil => simp [bump]
  | cons p rest ih =>
    by_cases hp : p.1 = w
    · simp [bump, hp]
    · have hp2 : ¬ w = p.1 := fun h => hp h.symm
      by_cases hw : w ∈ rest.map Prod.fst
      · simp [bump, hp, ih, hw, hp2]
      · simp [bump, hp, ih, hw, hp2]

theorem keys_nodup_bump (m : List (String × Nat)) (w : String)
    (h : (m.map Prod.fst).Nodup) : ((bump m w).map Prod.fst).Nodup := by
  rw [keys_bump]
  by_cases hw : w ∈ m.map Prod.fst
  · simpa [hw] using h
  · simp [hw, List.nodup_append, h]

theorem keys_nodup_foldl (ws : List String) (m : List (String × Nat))
    (h : (m.map Prod.fst).Nodup) : (((ws.foldl bump m)).map Prod.fst).Nodup := by
  induction ws generalizing m with
  | nil => simpa
  | cons w ws ih => exact ih (bump m w) (keys_nodup_bump m w h)

theorem keys_nodup_freq (ws : List String) : ((freqList ws).map Prod.fst).Nodup :=
  keys_nodup_foldl ws [] (by simp)

theorem mem_lookupC (m : List (String × Nat)) (p : String × Nat)
    (hn : (m.map Prod.fst).Nodup) (hp : p ∈ m) : p.2 = lookupC m p.1 := by
  induction m with
  | nil => simp at hp
  | cons q rest ih =>
    rw [List.map_cons, List.nodup_cons] at hn
    rcases List.mem_cons.mp hp with h | h
    · subst h
      simp [lookupC]
    · have hq : ¬ q.1 = p.1 := by
        intro he
        exact hn.1 (he ▸ List.mem_map_of_mem Prod.fst h)
      simp [lookupC, hq]
      exact ih hn.2 h

theorem freq_mem_count (ws : List String) (p : String × Nat)
    (hp : p ∈ freqList ws) : p.2 = ws.count p.1 := by
  rw [← lookupC_freq]
  exact mem_lookupC (freqList ws) p (keys_nodup_freq ws) hp

end TextProcessor

namespace DataCompressor

/-- The inner run-length scan of fast_compress (src/wasm/src/lib.rs lines
189-197): `while i+length < n && j+length < i && data[i+length] ==
data[j+length]`, with the break once `length` reaches 15.  The byte slice is
embedded as its length `n` and index function `f`.  Starting the budget at 15
makes the recursion structural; the budget runs out exactly when the break
fires. -/
def matchLenGo (f : Nat → Nat) (n i j : Nat) : Nat → Nat → Nat
  | 0, len => len
  | budget + 1, len =>
    if i + len < n ∧ j + len < i ∧ f (i + len) = f (j + len) then
      matchLenGo f n i j budget (len + 1)
    else len

/-- The dictionary scan `for j in 0..min(i, 4096)` of src/wasm/src/lib.rs
lines 188-203: `best` is the pair (match_length, match_offset), replaced only
on strictly longer matches, the offset recorded as `i - j`. -/
def bestMatchGo (f : Nat → Nat) (n i : Nat) : Nat → Nat → Nat × Nat → Nat × Nat
  | _, 0, best => best
  | j, rem + 1, best =>
    let len := matchLenGo f n i j 15 0
    bestMatchGo f n i (j + 1) rem (if best.1 < len then (len, i - j) else best)

/-- The outer `while i < data.len()` loop of src/wasm/src/lib.rs lines
183-220, with explicit fuel.  Every iteration advances `i` by at least 1 (a
match advances by `match_length >= 3`, a literal by `min(15, n - i) >= 1`),
so fuel `n` is never exhausted with `i` still below `n`. -/
def fcLoop (f : Nat → Nat) (n : Nat) : Nat → Nat → List Nat
  | 0, _ => []
  | fuel + 1, i =>
    if i < n then
      let best := bestMatchGo f n i 0 (min i 4096) (0, 0)
      if 3 ≤ best.1 then
        (0x80 ||| (best.1 - 3)) :: ((best.2 >>> 8) % 256) :: (best.2 &&& 0xFF) ::
          fcLoop f n fuel (i + best.1)
      else
        let ll := min 15 (n - i)
        ll :: ((List.range ll).map (fun k => f (i + k)) ++ fcLoop f n fuel (i + ll))
    else []

/-- Embedding of the function fast_compress of DataCompressor
(src/wasm/src/lib.rs lines 175-223): inputs shorter than 16 bytes are
returned as they are; longer inputs run the token loop over the slice viewed
as its index function. -/
def fast_compress (data : List Nat) : List Nat :=
  if data.length < 16 then data
  else fcLoop (fun k => data.getD k 0) data.length data.length 0

/-- Modelled from the spec: the token-stream format of section 4.3 (the
source defines the format through its encoder and has no decoder).  Walks the
stream and collects each match token's offset, the two big-endian bytes after
the tag byte; literal tokens are skipped over. -/
def tokOffsets : List Nat → List Nat
  | [] => []
  | b :: rest =>
    if 128 ≤ b then
      match rest with
      | hi :: lo :: rest2 => (hi * 256 + lo) :: tokOffsets rest2
      | _ => []
    else tokOffsets (rest.drop b)
termination_by s => s.length
decreasing_by
  · simp
    omega
  · simp [List.length_drop]
    omega

theorem tokOffsets_match (b hi lo : Nat) (rest : List Nat) (hb : 128 ≤ b) :
    tokOffsets (b :: hi :: lo :: rest) = (hi * 256 + lo) :: tokOffsets rest := by
  rw [tokOffsets]
  simp [hb]

theorem tokOffsets_lit (b : Nat) (rest : List Nat) (hb : b < 128) :
    tokOffsets (b :: rest) = tokOffsets (rest.drop b) := by
  match rest with
  | [] => rw [tokOffsets] <;> simp [Nat.not_le.mpr hb]
  | [x] => rw [tokOffsets] <;> simp [Nat.not_le.mpr hb]
  | x :: y :: rest2 =>
    rw [tokOffsets]
    simp [Nat.not_le.mpr hb]

/-- On an all-zero input the run-length scan is pure arithmetic: it counts up
to the budget, the end of the input, or the current position. -/
theorem matchLenGo_zeros (n i j : Nat) :
    ∀ budget len, matchLenGo (fun _ => 0) n i j budget len =
      len + min budget (min (n - i - len) (i - j - len)) := by
  intro budget
  induction budget with
  | zero => intro len; simp [matchLenGo]
  | succ budget ih =>
    intro len
    by_cases h : i + len < n ∧ j + len < i
    · rw [matchLenGo, if_pos ⟨h.1, h.2, rfl⟩, ih]
      omega
    · rw [matchLenGo, if_neg (fun hc => h ⟨hc.1, hc.2.1⟩)]
      omega

theorem bm_zeros_keep (n i : Nat) :
    ∀ rem j best, min 15 (n - i) ≤ best.1 →
      bestMatchGo (fun _ => 0) n i j rem best = best := by
  intro rem
  induction rem with
  | zero => intro j best _; rw [bestMatchGo]
  | succ rem ih =>
    intro j best hb
    rw [bestMatchGo]
    have hlen : matchLenGo (fun _ => 0) n i j 15 0 ≤ min 15 (n - i) := by
      rw [matchLenGo_zeros]
      omega
    rw [if_neg (by omega)]
    exact ih (j + 1) best hb

/-- On an all-zero input, position `i ≥ 15` always matches candidate `j = 0`
first, for the capped length, so the recorded offset is `i` itself: the scan
window is the prefix `0..min(i, 4096)` of the whole input, not a sliding
window behind `i`. -/
theorem bm_zeros (n i : Nat) (h15 : 15 ≤ i) (h1 : 1 ≤ min 15 (n - i)) :
    bestMatchGo (fun _ => 0) n i 0 (min i 4096) (0, 0) = (min 15 (n - i), i) := by
  obtain ⟨r, hr⟩ : ∃ r, min i 4096 = r + 1 := ⟨min i 4096 - 1, by omega⟩
  rw [hr, bestMatchGo]
  have hlen : matchLenGo (fun _ => 0) n i 0 15 0 = min 15 (n - i) := by
    rw [matchLenGo_zeros]
    omega
  rw [hlen]
  rw [if_pos (by simp; omega)]
  simpa using bm_zeros_keep n i r 1 (min 15 (n - i), i - 0) (by simp)

theorem fc_zeros_step (n fuel i : Nat) (h15 : 15 ≤ i) (hn : i + 15 ≤ n) :
    fcLoop (fun _ => 0) n (fuel + 1) i =
      140 :: ((i >>> 8) % 256) :: (i &&& 255) :: fcLoop (fun _ => 0) n fuel (i + 15) := by
  rw [fcLoop]
  have hb : bestMatchGo (fun _ => 0) n i 0 (min i 4096) (0, 0) = (15, i) := by
    rw [bm_zeros n i h15 (by omega)]
    congr 1
    omega
  rw [if_pos (by omega), hb]
  norm_num
  decide

/-- Offset 4110 is among the offsets the encoder emits on 4206 zero bytes:
from any reachable state `i ≤ 4110` with `i ≡ 4110 mod 15`, the greedy walk
eventually emits the match token for position 4110 with offset 4110. -/
theorem off_mem :
    ∀ fuel i, 15 ≤ i → i + 15 ≤ 4206 → 4206 ≤ i + 15 * fuel → i ≤ 4110 →
      15 ∣ (4110 - i) →
      4110 ∈ tokOffsets (fcLoop (fun _ => 0) 4206 fuel i) := by
  intro fuel
  induction fuel with
  | zero => intro i _ _ h3 _ _; omega
  | succ fuel ih =>
    intro i h1 h2 h3 h4 h5
    rw [fc_zeros_step 4206 fuel i h1 h2]
    rw [tokOffsets_match _ _ _ _ (by norm_num)]
    have hoff : (i >>> 8) % 256 * 256 + (i &&& 255) = i := by
      have hand := Nat.and_pow_two_sub_one_eq_mod i 8
      norm_num at hand
      rw [Nat.shiftRight_eq_div_pow, hand]
      norm_num
      omega
    rw [hoff]
    by_cases he : i = 4110
    · rw [he]; exact List.mem_cons_self _ _
    · refine List.mem_cons_of_mem _ (ih (i + 15) (by omega) (by omega) (by omega) (by omega) ?_)
      omega

theorem fc_zeros_start :
    fcLoop (fun _ => 0) 4206 4206 0 =
      15 :: (List.replicate 15 0 ++ fcLoop (fun _ => 0) 4206 4205 15) := by
  rw [show (4206 : Nat) = 4205 + 1 from rfl, fcLoop]
  rw [if_pos (by omega)]
  have hb : bestMatchGo (fun _ => 0) 4206 0 0 (min 0 4096) (0, 0) = (0, 0) := by
    rw [show min 0 4096 = 0 from rfl, bestMatchGo]
  rw [hb]
  norm_num

theorem getD_replicate_zero (k : Nat) : (List.replicate 4206 0).getD k 0 = 0 := by
  rcases Nat.lt_or_ge k 4206 with h | h
  · rw [List.getD_eq_getElem?_getD, List.getElem?_replicate, if_pos h]
    rfl
  · rw [List.getD_eq_getElem?_getD, List.getElem?_replicate, if_neg (by omega)]
    rfl

/-- Rust's `as i16` cast from a float rounds toward zero and SATURATES at the
i16 bounds (Rust reference, float-to-int `as` casts; NaN maps to 0).  On the
integral inputs the claims cover, rounding is the identity, so only the clamp
remains. -/
def satI16 (x : Int) : Int :=
  if x < -32768 then -32768 else if 32767 < x then 32767 else x

/-- Little-endian byte pair of an i16, as in `i16::to_le_bytes`: two's
complement of the value modulo 2^16, low byte first. -/
def toLeBytes (d : Int) : List Nat :=
  [(d % 65536).toNat % 256, (d % 65536).toNat / 256]

/-- Reading two little-endian bytes back as a signed i16, as in
`i16::from_le_bytes`. -/
def fromLeBytes (b0 b1 : Nat) : Int :=
  if 32768 ≤ b0 + 256 * b1 then ((b0 + 256 * b1 : Nat) : Int) - 65536
  else ((b0 + 256 * b1 : Nat) : Int)

/-- The encoding loop of delta_encode (src/wasm/src/lib.rs lines 231-235):
one saturated i16 delta `(value - last_value) as i16` per sample, with
`last_value` threading through (initially 0). -/
def encDeltas (last : Int) : List Int → List Int
  | [] => []
  | value :: rest => satI16 (value - last) :: encDeltas value rest

/-- Embedding of the function delta_encode of DataCompressor
(src/wasm/src/lib.rs lines 226-241).  Float samples are modelled as exact
integers: the claims under test concern integral samples, on which the
subtraction and accumulation the source performs in f32 are exact. -/
def delta_encode (samples : List Int) : List Nat :=
  (encDeltas 0 samples).flatMap toLeBytes

/-- The byte-pairing loop of delta_decode: consecutive little-endian pairs, a
trailing odd byte ignored (the `if i + 1 < data.len()` guard). -/
def pairBytes : List Nat → List Int
  | b0 :: b1 :: rest => fromLeBytes b0 b1 :: pairBytes rest
  | _ => []

/-- The accumulation loop of delta_decode: running sum from 0, one output
sample per delta. -/
def decSamples (current : Int) : List Int → List Int
  | [] => []
  | delta :: rest => (current + delta) :: decSamples (current + delta) rest

/-- Embedding of the function delta_decode of DataCompressor
(src/wasm/src/lib.rs lines 244-258). -/
def delta_decode (data : List Nat) : List Int :=
  decSamples 0 (pairBytes data)

/-- Consecutive differences, starting from `last`, all within plus-or-minus
32767. -/
def deltasSmall : Int → List Int → Bool
  | _, [] => true
  | last, value :: rest => decide ((value - last).natAbs ≤ 32767) && deltasSmall value rest

theorem pairBytes_toLe_append (d : Int) (rest : List Nat) :
    pairBytes (toLeBytes d ++ rest) =
      fromLeBytes ((d % 65536).toNat % 256) ((d % 65536).toNat / 256) :: pairBytes rest := by
  simp [toLeBytes, pairBytes]

theorem fromLe_toLe (d : Int) (h1 : -32768 ≤ d) (h2 : d ≤ 32767) :
    fromLeBytes ((d % 65536).toNat % 256) ((d % 65536).toNat / 256) = d := by
  unfold fromLeBytes
  split <;> omega

theorem satI16_eq (d : Int) (h : d.natAbs ≤ 32767) : satI16 d = d := by
  unfold satI16
  omega

theorem decode_encode (samples : List Int) (last : Int)
    (h : deltasSmall last samples = true) :
    decSamples last (pairBytes ((encDeltas last samples).flatMap toLeBytes)) = samples := by
  induction samples generalizing last with
  | nil => simp [encDeltas, pairBytes, decSamples]
  | cons value rest ih =>
    simp only [deltasSmall, Bool.and_eq_true, decide_eq_true_eq] at h
    have hd : satI16 (value - last) = value - last := satI16_eq _ h.1
    have hflat : (encDeltas last (value :: rest)).flatMap toLeBytes
        = toLeBytes (value - last) ++ (encDeltas value rest).flatMap toLeBytes := by
      simp [encDeltas, hd]
    rw [hflat, pairBytes_toLe_append, fromLe_toLe (value - last) (by omega) (by omega)]
    simp only [decSamples]
    rw [show last + (value - last) = value by ring]
    rw [ih value h.2]

end DataCompressor

/-- C5: multiplying with the 4x4 identity on either side writes the other
operand's 16 entries into the result buffer unchanged, for arbitrary 16-float
inputs (floats modelled as exact rationals; IEEE non-finite values lie
outside the model). -/
theorem MatrixMath.multiply_matrices_identity (a : Nat → ℚ) :
    multiply_matrices idMat a =
      [a 0, a 1, a 2, a 3, a 4, a 5, a 6, a 7, a 8, a 9, a 10, a 11, a 12, a 13, a 14, a 15] ∧
    multiply_matrices a idMat =
      [a 0, a 1, a 2, a 3, a 4, a 5, a 6, a 7, a 8, a 9, a 10, a 11, a 12, a 13, a 14, a 15] := by
  constructor <;> simp [multiply_matrices, idMat]

/-- C1: boyer_moore_search does NOT return the first occurrence of the
pattern: on text "aaab" and pattern "aab" the pattern occurs at index 1
(dropping 1 then taking 3 characters of the text yields the pattern), yet the
search returns -1.  The mismatch branch shifts by the bad-character table's
raw index `max(bad_char[c], j)` instead of the classical `j - bad_char[c]`,
over-shifting past the match. -/
theorem TextProcessor.boyer_moore_misses_occurrence :
    boyer_moore_search "aaab" "aab" = -1 ∧
      ("aaab".data.drop 1).take 3 = "aab".data := by
  decide

/-- C7: the degenerate cases hold ("hello"/"" gives 0, "abc"/"abcd" gives
-1), but the spec's own positive example fails: "world" occurs at index 6 of
"hello world" (dropping 6 then taking 5 characters yields the pattern), yet
the search returns -1 instead of the specified 6, by the same over-shift bug
as in the "aaab"/"aab" case. -/
theorem TextProcessor.boyer_moore_spec_example_fails :
    boyer_moore_search "hello world" "world" = -1 ∧
      ("hello world".data.drop 6).take 5 = "world".data ∧
      boyer_moore_search "hello" "" = 0 ∧
      boyer_moore_search "abc" "abcd" = -1 := by
  decide

/-- The empty pattern returns 0 for every text (first guard of
boyer_moore_search). -/
theorem TextProcessor.boyer_moore_empty_pattern (t : String) :
    boyer_moore_search t "" = 0 := by
  rw [boyer_moore_search, if_pos (show "".isEmpty = true from rfl)]

/-- A pattern byte-longer than the text returns -1 (second guard of
boyer_moore_search). -/
theorem TextProcessor.boyer_moore_pattern_longer (t p : String)
    (h : t.utf8ByteSize < p.utf8ByteSize) : boyer_moore_search t p = -1 := by
  rw [boyer_moore_search]
  have hp : ¬ p.isEmpty := by
    intro he
    rw [String.isEmpty_iff] at he
    subst he
    have h0 : "".utf8ByteSize = 0 := rfl
    omega
  rw [if_neg (by simpa using hp), if_pos h]

theorem TextProcessor.boyer_moore_pattern_longer_witness :
    TextProcessor.boyer_moore_search "ab" "abc" = -1 :=
  TextProcessor.boyer_moore_pattern_longer "ab" "abc" (by decide)

/-- C8: extract_keywords returns at most `maxKeywords` entries, ordered by
non-increasing occurrence frequency — whatever order the hash map hands the
frequency entries to the sort in (the hypothesis ranges over every
permutation of the model's frequency list), and whatever the external
normalization function does. -/
theorem TextProcessor.extract_keywords_bounded_sorted (norm : String → String)
    (text : String) (maxKeywords : Nat) (l : List (String × Nat))
    (hl : l.Perm (freqList (wordsOf norm text))) :
    (rankKeywords l maxKeywords).length ≤ maxKeywords ∧
      (rankKeywords l maxKeywords).Pairwise
        (fun w1 w2 => (wordsOf norm text).count w2 ≤ (wordsOf norm text).count w1) := by
  constructor
  · simp [rankKeywords]
  · have hsort : (l.insertionSort countGE).Pairwise countGE :=
      List.sorted_insertionSort countGE l
    have hmem : ∀ p ∈ l.insertionSort countGE, p ∈ freqList (wordsOf norm text) :=
      fun p hp => hl.mem_iff.mp ((List.perm_insertionSort countGE l).mem_iff.mp hp)
    have hcount : (l.insertionSort countGE).Pairwise
        (fun a b : String × Nat =>
          (wordsOf norm text).count b.1 ≤ (wordsOf norm text).count a.1) := by
      refine hsort.imp_of_mem ?_
      intro a b ha hb hab
      rw [← freq_mem_count _ a (hmem a ha), ← freq_mem_count _ b (hmem b hb)]
      exact hab
    have htake := hcount.sublist (List.take_sublist maxKeywords _)
    rw [rankKeywords, List.pairwise_map]
    exact htake

theorem TextProcessor.extract_keywords_bounded_sorted_witness :
    (TextProcessor.rankKeywords
        (TextProcessor.freqList (TextProcessor.wordsOf id "aaaa bbbb aaaa")) 2).length ≤ 2 ∧
      (TextProcessor.rankKeywords
          (TextProcessor.freqList (TextProcessor.wordsOf id "aaaa bbbb aaaa")) 2).Pairwise
        (fun w1 w2 => (TextProcessor.wordsOf id "aaaa bbbb aaaa").count w2 ≤
          (TextProcessor.wordsOf id "aaaa bbbb aaaa").count w1) :=
  TextProcessor.extract_keywords_bounded_sorted id "aaaa bbbb aaaa" 2
    (TextProcessor.freqList (TextProcessor.wordsOf id "aaaa bbbb aaaa")) (List.Perm.refl _)

/-- C10: the keywords extract_keywords returns are pairwise distinct — they
are drawn from the keys of the frequency map — whatever order the hash map
hands the entries to the sort in. -/
theorem TextProcessor.extract_keywords_nodup (norm : String → String) (text : String)
    (maxKeywords : Nat) (l : List (String × Nat))
    (hl : l.Perm (freqList (wordsOf norm text))) :
    (rankKeywords l maxKeywords).Nodup := by
  have h1 : (l.map Prod.fst).Nodup :=
    ((hl.map Prod.fst).nodup_iff).mpr (keys_nodup_freq (wordsOf norm text))
  have h2 : ((l.insertionSort countGE).map Prod.fst).Nodup :=
    (((List.perm_insertionSort countGE l).map Prod.fst).nodup_iff).mpr h1
  rw [rankKeywords, List.map_take]
  exact (List.take_sublist maxKeywords _).nodup h2

theorem TextProcessor.extract_keywords_nodup_witness :
    (TextProcessor.rankKeywords
        (TextProcessor.freqList (TextProcessor.wordsOf id "cccc dddd cccc")) 5).Nodup :=
  TextProcessor.extract_keywords_nodup id "cccc dddd cccc" 5
    (TextProcessor.freqList (TextProcessor.wordsOf id "cccc dddd cccc")) (List.Perm.refl _)

/-- C2 counterexample: the delta codec does not wrap a delta of 40000 to the
two's-complement value -25536; Rust's float-to-int `as` cast saturates. -/
theorem DataCompressor.delta_no_wraparound_cex :
    delta_decode (delta_encode [(40000 : Int)]) ≠ [(-25536 : Int)] := by
  decide

/-- C2 amended: delta_encode narrows by SATURATION, not wrapping: encoding a
single sample 40000 (delta 40000 from the zero accumulator) and decoding
yields 32767, the clamped i16 maximum. -/
theorem DataCompressor.delta_saturates_at_forty_thousand :
    delta_decode (delta_encode [(40000 : Int)]) = [(32767 : Int)] := by
  decide

/-- C6: for samples whose consecutive differences against the running
accumulator (initialized to 0) are all within plus-or-minus 32767, decoding
the encoding reproduces the samples exactly. -/
theorem DataCompressor.delta_roundtrip_exact (samples : List Int)
    (h : deltasSmall 0 samples = true) :
    delta_decode (delta_encode samples) = samples := by
  unfold delta_decode delta_encode
  exact decode_encode samples 0 h

theorem DataCompressor.delta_roundtrip_exact_witness :
    DataCompressor.delta_decode (DataCompressor.delta_encode [5, -3, 100]) = [5, -3, 100] :=
  DataCompressor.delta_roundtrip_exact [5, -3, 100] (by decide)

/-- C9: inputs of fewer than 16 bytes pass through fast_compress verbatim. -/
theorem DataCompressor.fast_compress_short_passthrough (data : List Nat)
    (h : data.length < 16) : fast_compress data = data := by
  rw [fast_compress, if_pos h]

theorem DataCompressor.fast_compress_short_passthrough_witness :
    DataCompressor.fast_compress [1, 2, 3] = [1, 2, 3] :=
  DataCompressor.fast_compress_short_passthrough [1, 2, 3] (by decide)

/-- C3 refutation: on an input of 4206 zero bytes, the token stream
fast_compress emits contains a match token whose offset exceeds 4096 (it is
4110).  The dictionary loop scans `for j in 0..min(i, 4096)` — the first
bytes of the whole input, not a window behind the current position — and
records `offset = i - j`, so once the greedy walk passes position 4096 the
emitted offsets exceed 4096. -/
theorem DataCompressor.fast_compress_offset_overflow :
    ∃ off ∈ tokOffsets (fast_compress (List.replicate 4206 0)), 4096 < off := by
  have hf : (fun k => (List.replicate 4206 0).getD k 0) = (fun _ => (0 : Nat)) := by
    funext k
    exact getD_replicate_zero k
  have hlen : (List.replicate 4206 0).length = 4206 := List.length_replicate _ _
  rw [fast_compress, if_neg (by rw [hlen]; omega), hlen, hf]
  rw [fc_zeros_start, tokOffsets_lit 15 _ (by norm_num)]
  rw [show List.drop 15 (List.replicate 15 0 ++ fcLoop (fun _ => 0) 4206 4205 15)
      = fcLoop (fun _ => 0) 4206 4205 15 from
    (List.length_replicate 15 0) ▸ List.drop_left _ _]
  exact ⟨4110, off_mem 4205 15 (by omega) (by omega) (by omega) (by omega) (by omega), by omega⟩
